import Mathlib

/-!
# StoryGen — verification of the chunking / tagging / orchestration pipeline

Shallow embedding of the StoryGen repository (text2paragraph.py,
paragraph2sentences.py, t2t.py, merge1level.py, ewardea.py,
scenes2description.py).  Text is modelled as `List Char`; Python string
primitives (`str.split`, `str.replace`, `str.strip`, `str.join`) are embedded
as executable Lean functions with CPython semantics (ASCII whitespace set).
File systems and the network are modelled as explicit maps / oracles; each
script's per-file loop is embedded as a fold or structural recursion over the
list of matched files.
-/

/-- Text is a list of characters. -/
abbrev Str := List Char

/-- Characters that Python's `str.strip()` removes (the ASCII whitespace
characters; the scripts only process ASCII text). -/
def isPyWs (c : Char) : Bool :=
  c = ' ' || c = '\t' || c = '\n' || c = '\r' || c = '\x0b' || c = '\x0c'

/-- Python `s.lstrip()` on ASCII text. -/
def ltrim (s : Str) : Str := s.dropWhile isPyWs

/-- Python `s.rstrip()` on ASCII text. -/
def rtrim (s : Str) : Str := (s.reverse.dropWhile isPyWs).reverse

/-- Python `s.strip()` on ASCII text. -/
def pyStrip (s : Str) : Str := rtrim (ltrim s)

/-- Prepend a character to the first piece of a split result (the scanning
step of Python `str.split` when the current character is not a separator). -/
def withHead (c : Char) : List Str → List Str
  | [] => [[c]]
  | h :: t => (c :: h) :: t

/-- Python `content.split("\n\n")` (text2paragraph.py line 35): leftmost,
non-overlapping split on two consecutive newline characters. -/
def splitNl2 : Str → List Str
  | [] => [[]]
  | [c] => [[c]]
  | c :: d :: rest =>
    if c = '\n' ∧ d = '\n' then [] :: splitNl2 rest
    else withHead c (splitNl2 (d :: rest))

/-- Sentence terminators of the regex `(?<=[.!?])\s+`
(paragraph2sentences.py line 36). -/
def isTerm (c : Char) : Bool := c = '.' || c = '!' || c = '?'

/-- One left-to-right scan of Python `re.split(r'(?<=[.!?])\s+', s)`
(paragraph2sentences.py line 36).  `skip = true` while the scanner is inside
a whitespace run that the regex consumed as a separator. -/
def sentA (skip : Bool) : Str → List Str
  | [] => [[]]
  | [c] => if skip && isPyWs c then [[]] else [[c]]
  | c :: d :: rest =>
    if skip && isPyWs c then sentA true (d :: rest)
    else if isTerm c && isPyWs d then [c] :: sentA true (d :: rest)
    else withHead c (sentA false (d :: rest))

/-- Python `re.split(r'(?<=[.!?])\s+', s)`: split at every position that
follows a `.`/`!`/`?` and is followed by whitespace, consuming the whole
whitespace run as the separator. -/
def sentSplit (s : Str) : List Str := sentA false s

/-- Prefix test on character lists (Python substring search primitive). -/
def isPre : Str → Str → Bool
  | [], _ => true
  | _ :: _, [] => false
  | a :: as, b :: bs => if a = b then isPre as bs else false

/-- Occurrence test: does `pat` occur as a contiguous substring? -/
def hasSub (pat : Str) : Str → Bool
  | [] => pat.isEmpty
  | c :: rest => isPre pat (c :: rest) || hasSub pat rest

/-- Python `s.split(sep)` for a non-empty separator `sep = p0 :: ps`:
leftmost, non-overlapping split. -/
def splitOnSub (p0 : Char) (ps : Str) : Str → List Str
  | [] => [[]]
  | c :: rest =>
    if isPre (p0 :: ps) (c :: rest) then [] :: splitOnSub p0 ps (rest.drop ps.length)
    else withHead c (splitOnSub p0 ps rest)
termination_by s => s.length
decreasing_by
  · simp only [List.length_drop, List.length_cons]
    omega
  · simp

/-- Python `s.replace(find, repl)` for a non-empty `find = f0 :: fs`:
replace every leftmost, non-overlapping occurrence. -/
def replCore (f0 : Char) (fs repl : Str) : Str → Str
  | [] => []
  | c :: rest =>
    if isPre (f0 :: fs) (c :: rest) then repl ++ replCore f0 fs repl (rest.drop fs.length)
    else c :: replCore f0 fs repl rest
termination_by s => s.length
decreasing_by
  · simp only [List.length_drop, List.length_cons]
    omega
  · simp

/-- CPython `s.replace(find, repl)`: for an empty `find` the replacement is
inserted before every character and after the last one
(`"ab".replace("", "X") == "XaXbX"`); for a non-empty `find` every leftmost,
non-overlapping occurrence is replaced.  Used by all five file-name
transformations (`base_name.replace(FIND_STR, REPLACE_STR)`). -/
def pyReplace (s find repl : Str) : Str :=
  match find with
  | [] => repl ++ (s.map (fun c => c :: repl)).flatten
  | f0 :: fs => replCore f0 fs repl s

/-- Python `base_name.split("_")` (merge1level.py line 33). -/
def splitUnd : Str → List Str
  | [] => [[]]
  | c :: rest => if c = '_' then [] :: splitUnd rest else withHead c (splitUnd rest)

/-- Python `sep.join(pieces)`. -/
def joinSep (sep : Str) : List Str → Str
  | [] => []
  | [u] => u
  | u :: v :: rest => u ++ sep ++ joinSep sep (v :: rest)

/-- merge1level.py line 33: `"_".join(base_name.split("_")[:-1])` — drop the
trailing underscore-delimited token of a chunk file's base name. -/
def deriveMergeKey (b : Str) : Str := joinSep ['_'] ((splitUnd b).dropLast)

/-- The two-newline separator appended by the merger and used by the
paragraph splitter. -/
def nl2 : Str := ['\n', '\n']

/-- Shared unit post-processing of text2paragraph.py line 35 and t2t.py
line 102: strip every piece, keep only pieces that are non-empty after
stripping. -/
def stripFilter (pieces : List Str) : List Str :=
  (pieces.map pyStrip).filter (fun p => !p.isEmpty)

/-- text2paragraph.py line 35:
`[p.strip() for p in content.split("\n\n") if p.strip()]`. -/
def paragraphUnits (content : Str) : List Str := stripFilter (splitNl2 content)

/-- paragraph2sentences.py line 36:
`re.split(r'(?<=[.!?])\s+', content.strip())`. -/
def sentenceUnits (content : Str) : List Str := sentSplit (pyStrip content)

/-- t2t.py line 102 applied to the pieces returned by `re.split`:
`[p.strip() for p in re.split(SPLIT_STR, content) if p.strip()]`. -/
def t2tUnits (pieces : List Str) : List Str := stripFilter pieces

/-- Zero-padding of Python's format spec `{i:04}` / `{i:02}`. -/
def padZeros (w : Nat) (s : Str) : Str := List.replicate (w - s.length) '0' ++ s

/-- paragraph2sentences.py line 40: `f"{base_name}_{i:04}.txt"` (width 4;
text2paragraph.py uses width 2). -/
def unitFileName (base : Str) (i w : Nat) : Str :=
  base ++ '_' :: padZeros w (Nat.toDigits 10 i) ++ ['.', 't', 'x', 't']

/-- paragraph2sentences.py lines 39-43: one output file per sentence, numbered
from 1 with width-4 zero padding; the write loop never drops a unit. -/
def sentenceOutputs (base content : Str) : List (Str × Str) :=
  (sentenceUnits content).enum.map (fun pr => (unitFileName base (pr.1 + 1) 4, pr.2))

/-! ## Basic lemmas about the embedded string primitives -/

theorem withHead_ne_nil (c : Char) (l : List Str) : withHead c l ≠ [] := by
  cases l <;> simp [withHead]

theorem splitNl2_ne_nil : ∀ s : Str, splitNl2 s ≠ []
  | [] => by simp [splitNl2]
  | [c] => by simp [splitNl2]
  | c :: d :: rest => by
    rw [splitNl2]
    split
    · simp
    · exact withHead_ne_nil _ _

theorem sentA_ne_nil : ∀ (sk : Bool) (s : Str), sentA sk s ≠ []
  | _, [] => by simp [sentA]
  | sk, [c] => by rw [sentA]; split <;> simp
  | sk, c :: d :: rest => by
    rw [sentA]
    split
    · exact sentA_ne_nil true (d :: rest)
    · split
      · simp
      · exact withHead_ne_nil _ _

theorem splitUnd_ne_nil : ∀ s : Str, splitUnd s ≠ []
  | [] => by simp [splitUnd]
  | c :: rest => by
    rw [splitUnd]
    split
    · simp
    · exact withHead_ne_nil _ _

theorem splitOnSub_ne_nil (p0 : Char) (ps : Str) : ∀ s : Str, splitOnSub p0 ps s ≠ []
  | [] => by rw [splitOnSub]; simp
  | c :: rest => by
    rw [splitOnSub]
    split
    · simp
    · exact withHead_ne_nil _ _

theorem hasSub_nil_pat : ∀ s : Str, hasSub [] s = true
  | [] => by simp [hasSub, List.isEmpty]
  | c :: rest => by simp [hasSub, isPre]

theorem isPre_append {pat s : Str} (b : Str) (h : isPre pat s = true) :
    isPre pat (s ++ b) = true := by
  induction pat generalizing s with
  | nil => simp [isPre]
  | cons a as ih =>
    cases s with
    | nil => simp [isPre] at h
    | cons c cs =>
      simp only [List.cons_append, isPre] at h ⊢
      by_cases hac : a = c
      · rw [if_pos hac] at h ⊢
        exact ih h
      · rw [if_neg hac] at h
        exact absurd h (by simp)

theorem hasSub_append_right {pat u : Str} (b : Str) (h : hasSub pat u = true) :
    hasSub pat (u ++ b) = true := by
  induction u with
  | nil =>
    rw [hasSub] at h
    have : pat = [] := by simpa [List.isEmpty_iff] using h
    subst this
    exact hasSub_nil_pat b
  | cons c cs ih =>
    rw [hasSub] at h
    rw [List.cons_append, hasSub]
    rcases Bool.or_eq_true_iff.mp h with h1 | h2
    · exact Bool.or_eq_true_iff.mpr (Or.inl (by
        have := isPre_append b h1
        simpa using this))
    · exact Bool.or_eq_true_iff.mpr (Or.inr (ih h2))

theorem hasSub_append_left {pat u : Str} (a : Str) (h : hasSub pat u = true) :
    hasSub pat (a ++ u) = true := by
  induction a with
  | nil => simpa using h
  | cons c cs ih =>
    rw [List.cons_append, hasSub]
    exact Bool.or_eq_true_iff.mpr (Or.inr ih)

theorem hasSub_middle {pat u : Str} (a b : Str) (h : hasSub pat u = true) :
    hasSub pat (a ++ u ++ b) = true := by
  rw [List.append_assoc]
  exact hasSub_append_left a (hasSub_append_right b h)

theorem dwIdem (p : Char → Bool) : ∀ l : Str, (l.dropWhile p).dropWhile p = l.dropWhile p := by
  intro l
  induction l with
  | nil => simp
  | cons c cs ih =>
    rw [List.dropWhile_cons]
    split
    · exact ih
    · rw [List.dropWhile_cons]
      simp_all

theorem dwSuffix (p : Char → Bool) : ∀ l : Str, ∃ a : Str, l = a ++ l.dropWhile p := by
  intro l
  induction l with
  | nil => exact ⟨[], rfl⟩
  | cons c cs ih =>
    rw [List.dropWhile_cons]
    split
    · obtain ⟨a, ha⟩ := ih
      exact ⟨c :: a, by rw [List.cons_append, ← ha]⟩
    · exact ⟨[], rfl⟩

theorem dwHeadFalse {p : Char → Bool} : ∀ {l : Str} {c : Char},
    (l.dropWhile p).head? = some c → p c = false := by
  intro l
  induction l with
  | nil => simp
  | cons a as ih =>
    intro c h
    rw [List.dropWhile_cons] at h
    split at h
    · exact ih h
    · simp at h
      subst h
      simp_all

theorem dwAllNil {p : Char → Bool} {l : Str} (h : ∀ c ∈ l, p c = true) :
    l.dropWhile p = [] := by
  induction l with
  | nil => simp
  | cons c cs ih =>
    rw [List.dropWhile_cons, if_pos (h c (by simp))]
    exact ih (fun c hc => h c (by simp [hc]))

theorem dwAppendAll {p : Char → Bool} {a : Str} (b : Str) (h : ∀ c ∈ a, p c = true) :
    (a ++ b).dropWhile p = b.dropWhile p := by
  induction a with
  | nil => simp
  | cons c cs ih =>
    rw [List.cons_append, List.dropWhile_cons, if_pos (h c (by simp))]
    exact ih (fun c hc => h c (by simp [hc]))

theorem dwHeadNoop {p : Char → Bool} {l : Str} {c : Char}
    (h : l.head? = some c) (hc : p c = false) : l.dropWhile p = l := by
  cases l with
  | nil => simp
  | cons a as =>
    simp at h
    subst h
    rw [List.dropWhile_cons, if_neg (by simp [hc])]

theorem headAppend {s : Str} (z : Str) (h : s ≠ []) : (s ++ z).head? = s.head? := by
  cases s with
  | nil => exact absurd rfl h
  | cons c cs => simp

theorem getLastAppend (x : Str) {y : Str} (h : y ≠ []) :
    (x ++ y).getLast? = y.getLast? := by
  rw [← List.head?_reverse, List.reverse_append,
      headAppend x.reverse (by simpa using h), List.head?_reverse]

/-! ## Lemmas about stripping -/

theorem rtrim_idem (l : Str) : rtrim (rtrim l) = rtrim l := by
  simp only [rtrim, List.reverse_reverse]
  rw [dwIdem]

theorem rtrim_decomp (m : Str) : ∃ z : Str, m = rtrim m ++ z := by
  obtain ⟨a, ha⟩ := dwSuffix isPyWs m.reverse
  refine ⟨a.reverse, ?_⟩
  calc m = m.reverse.reverse := (List.reverse_reverse m).symm
    _ = (a ++ m.reverse.dropWhile isPyWs).reverse := by rw [← ha]
    _ = (m.reverse.dropWhile isPyWs).reverse ++ a.reverse := by rw [List.reverse_append]
    _ = rtrim m ++ a.reverse := rfl

theorem stripLast_not_ws {s : Str} {c : Char} (h : (pyStrip s).getLast? = some c) :
    isPyWs c = false := by
  simp only [pyStrip, rtrim] at h
  rw [List.getLast?_reverse] at h
  exact dwHeadFalse h

theorem strip_infix (s : Str) : ∃ a b : Str, s = a ++ pyStrip s ++ b := by
  obtain ⟨a, ha⟩ := dwSuffix isPyWs s
  obtain ⟨z, hz⟩ := rtrim_decomp (ltrim s)
  refine ⟨a, z, ?_⟩
  rw [List.append_assoc]
  show s = a ++ (rtrim (ltrim s) ++ z)
  rw [← hz]
  exact ha

theorem hasSub_strip {pat s : Str} (h : hasSub pat s = false) :
    hasSub pat (pyStrip s) = false := by
  obtain ⟨a, b, hab⟩ := strip_infix s
  by_contra hc
  rw [Bool.not_eq_false] at hc
  rw [hab, hasSub_middle a b hc] at h
  exact Bool.true_eq_false.mp h

theorem rtrim_append_ws {x w : Str} {lc : Char} (hw : ∀ c ∈ w, isPyWs c = true)
    (hx : x.getLast? = some lc) (hlc : isPyWs lc = false) : rtrim (x ++ w) = x := by
  have h1 : (x ++ w).reverse.dropWhile isPyWs = x.reverse := by
    rw [List.reverse_append, dwAppendAll x.reverse (fun c hc => hw c (by simpa using hc))]
    exact dwHeadNoop (by rw [List.head?_reverse]; exact hx) hlc
  simp only [rtrim, h1, List.reverse_reverse]

theorem ltrim_head_not_ws {s : Str} {c : Char} (h : (ltrim s).head? = some c) :
    isPyWs c = false := dwHeadFalse h

theorem pyStrip_idem (s : Str) : pyStrip (pyStrip s) = pyStrip s := by
  have hstep : ltrim (rtrim (ltrim s)) = rtrim (ltrim s) := by
    cases hr : rtrim (ltrim s) with
    | nil => simp [ltrim]
    | cons c u =>
      obtain ⟨z, hz⟩ := rtrim_decomp (ltrim s)
      have hc : (ltrim s).head? = some c := by
        rw [hz, hr, List.cons_append]
        simp
      have hcw : isPyWs c = false :=
        dwHeadFalse (show (List.dropWhile isPyWs s).head? = some c from hc)
      rw [← hr]
      exact dwHeadNoop (by rw [hr]; simp) hcw
  show rtrim (ltrim (rtrim (ltrim s))) = rtrim (ltrim s)
  rw [hstep, rtrim_idem]

theorem pyStrip_all_ws {s : Str} (h : ∀ c ∈ s, isPyWs c = true) : pyStrip s = [] := by
  have h0 : ltrim s = [] := dwAllNil h
  show rtrim (ltrim s) = []
  rw [h0]
  rfl

/-! ## Lemmas about the paragraph splitter -/

theorem hasSub_nl2_nil : hasSub nl2 [] = false := by decide

theorem hasSub_nl2_single (c : Char) : hasSub nl2 [c] = false := by
  show (isPre nl2 [c] || hasSub nl2 []) = false
  have h1 : isPre nl2 [c] = false := by
    show (if '\n' = c then isPre ['\n'] [] else false) = false
    split <;> simp [isPre]
  rw [h1, hasSub_nl2_nil]
  decide

theorem isPre_nl2_cons_cons (c d : Char) (x : Str) :
    isPre nl2 (c :: d :: x) = (decide (c = '\n') && decide (d = '\n')) := by
  show (if '\n' = c then if '\n' = d then isPre [] x else false else false) = _
  by_cases h1 : c = '\n' <;> by_cases h2 : d = '\n' <;> simp [h1, h2, isPre, eq_comm]

theorem hasSub_cons_false {pat : Str} {c : Char} {rest : Str}
    (h : hasSub pat (c :: rest) = false) :
    isPre pat (c :: rest) = false ∧ hasSub pat rest = false := by
  have : (isPre pat (c :: rest) || hasSub pat rest) = false := h
  exact ⟨by simp_all, by simp_all⟩

theorem splitNl2_head_piece : ∀ (s x : Str) (t2 : List Str),
    splitNl2 s = x :: t2 → x = [] ∨ x.head? = s.head?
  | [], x, t2 => by
    intro h
    simp [splitNl2] at h
    exact Or.inl h.1
  | [c], x, t2 => by
    intro h
    simp [splitNl2] at h
    rw [h.1]
    simp
  | c :: d :: rest, x, t2 => by
    intro h
    rw [splitNl2] at h
    split at h
    · exact Or.inl (List.cons_eq_cons.mp h).1.symm
    · obtain ⟨h', t', hE⟩ := List.exists_cons_of_ne_nil (splitNl2_ne_nil (d :: rest))
      rw [hE] at h
      simp only [withHead] at h
      rw [← (List.cons_eq_cons.mp h).1]
      simp

theorem splitNl2_piece_no_nl2 (s : Str) : ∀ p ∈ splitNl2 s, hasSub nl2 p = false := by
  induction s using splitNl2.induct with
  | case1 =>
    intro p hp
    simp [splitNl2] at hp
    rw [hp]
    exact hasSub_nl2_nil
  | case2 c =>
    intro p hp
    simp [splitNl2] at hp
    rw [hp]
    exact hasSub_nl2_single c
  | case3 c d rest h ih =>
    intro p hp
    rw [splitNl2, if_pos h] at hp
    rcases List.mem_cons.mp hp with h0 | h0
    · rw [h0]; exact hasSub_nl2_nil
    · exact ih p h0
  | case4 c d rest h ih =>
    intro p hp
    rw [splitNl2, if_neg h] at hp
    obtain ⟨h', t', hE⟩ := List.exists_cons_of_ne_nil (splitNl2_ne_nil (d :: rest))
    rw [hE] at hp
    simp only [withHead] at hp
    rcases List.mem_cons.mp hp with h0 | h0
    · subst h0
      have hh : hasSub nl2 h' = false := ih h' (by rw [hE]; simp)
      have hpre : isPre nl2 (c :: h') = false := by
        rcases splitNl2_head_piece (d :: rest) h' t' hE with hnil | hhead
        · subst hnil
          show (if '\n' = c then isPre ['\n'] [] else false) = false
          split <;> simp [isPre]
        · cases h' with
          | nil => simp at hhead
          | cons e h'' =>
            simp at hhead
            rw [isPre_nl2_cons_cons]
            by_cases hc : c = '\n'
            · have hd : ¬ e = '\n' := by
                rw [hhead]
                intro hd
                exact h ⟨hc, hd⟩
              simp [hd]
            · simp [hc]
      show (isPre nl2 (c :: h') || hasSub nl2 h') = false
      rw [hpre, hh]
      decide
    · exact ih p (by rw [hE]; exact List.mem_cons_of_mem h' h0)

theorem splitNl2_piece_chars (s : Str) : ∀ p ∈ splitNl2 s, ∀ c ∈ p, c ∈ s := by
  induction s using splitNl2.induct with
  | case1 =>
    intro p hp
    simp [splitNl2] at hp
    rw [hp]
    simp
  | case2 c =>
    intro p hp
    simp [splitNl2] at hp
    rw [hp]
    simp
  | case3 c d rest h ih =>
    intro p hp e he
    rw [splitNl2, if_pos h] at hp
    rcases List.mem_cons.mp hp with h0 | h0
    · subst h0; simp at he
    · exact List.mem_cons_of_mem _ (List.mem_cons_of_mem _ (ih p h0 e he))
  | case4 c d rest h ih =>
    intro p hp e he
    rw [splitNl2, if_neg h] at hp
    obtain ⟨h', t', hE⟩ := List.exists_cons_of_ne_nil (splitNl2_ne_nil (d :: rest))
    rw [hE] at hp
    simp only [withHead] at hp
    rcases List.mem_cons.mp hp with h0 | h0
    · subst h0
      rcases List.mem_cons.mp he with h1 | h1
      · subst h1; simp
      · exact List.mem_cons_of_mem _ (ih h' (by rw [hE]; simp) e h1)
    · exact List.mem_cons_of_mem _ (ih p (by rw [hE]; exact List.mem_cons_of_mem h' h0) e he)

theorem splitNl2_no_occurrence : ∀ p : Str, hasSub nl2 p = false → splitNl2 p = [p]
  | [] => by intro _; simp [splitNl2]
  | [c] => by intro _; simp [splitNl2]
  | c :: d :: p'' => by
    intro h
    obtain ⟨hpre, htail⟩ := hasSub_cons_false h
    rw [isPre_nl2_cons_cons] at hpre
    have hnot : ¬ (c = '\n' ∧ d = '\n') := by
      intro ⟨h1, h2⟩
      simp [h1, h2] at hpre
    rw [splitNl2, if_neg hnot, splitNl2_no_occurrence (d :: p'') htail]
    simp [withHead]

theorem splitNl2_glue (s : Str) : ∀ p : Str, hasSub nl2 p = false →
    p.getLast? ≠ some '\n' →
    splitNl2 (p ++ '\n' :: '\n' :: s) = p :: splitNl2 s := by
  intro p
  induction p with
  | nil =>
    intro _ _
    rw [List.nil_append, splitNl2, if_pos ⟨rfl, rfl⟩]
  | cons c p' ih =>
    intro h hl
    cases p' with
    | nil =>
      have hc : ¬ c = '\n' := by
        intro hc
        exact hl (by rw [hc]; rfl)
      rw [List.cons_append, List.nil_append, splitNl2,
          if_neg (fun hp => hc hp.1), splitNl2, if_pos ⟨rfl, rfl⟩]
      simp [withHead]
    | cons d p'' =>
      obtain ⟨hpre, htail⟩ := hasSub_cons_false h
      rw [isPre_nl2_cons_cons] at hpre
      have hnot : ¬ (c = '\n' ∧ d = '\n') := by
        intro ⟨h1, h2⟩
        simp [h1, h2] at hpre
      have hl' : (d :: p'').getLast? ≠ some '\n' := by
        rw [← List.getLast?_cons_cons (a := c)]
        exact hl
      rw [List.cons_append, List.cons_append, splitNl2, if_neg hnot]
      rw [show d :: (p'' ++ '\n' :: '\n' :: s) = (d :: p'') ++ '\n' :: '\n' :: s from rfl]
      rw [ih htail hl']
      simp [withHead]

theorem splitNl2_joinSep : ∀ U : List Str, U ≠ [] →
    (∀ u ∈ U, hasSub nl2 u = false ∧ u.getLast? ≠ some '\n') →
    splitNl2 (joinSep nl2 U) = U
  | [], h, _ => absurd rfl h
  | [u], _, hU => by
    rw [joinSep, splitNl2_no_occurrence u (hU u (by simp)).1]
  | u :: v :: r, _, hU => by
    have hrec : splitNl2 (joinSep nl2 (v :: r)) = v :: r :=
      splitNl2_joinSep (v :: r) (by simp)
        (fun w hw => hU w (List.mem_cons_of_mem u hw))
    rw [joinSep]
    rw [show u ++ nl2 ++ joinSep nl2 (v :: r) =
          u ++ '\n' :: '\n' :: joinSep nl2 (v :: r) by
      rw [List.append_assoc]; rfl]
    rw [splitNl2_glue (joinSep nl2 (v :: r)) u (hU u (by simp)).1 (hU u (by simp)).2]
    rw [hrec]

theorem mem_stripFilter {u : Str} {pieces : List Str} (h : u ∈ stripFilter pieces) :
    u ≠ [] ∧ ∃ p ∈ pieces, pyStrip p = u := by
  obtain ⟨hmap, hne⟩ := List.mem_filter.mp h
  obtain ⟨p, hp, hpu⟩ := List.mem_map.mp hmap
  exact ⟨by simpa using hne, ⟨p, hp, hpu⟩⟩

theorem paragraph_unit_props {t u : Str} (hu : u ∈ paragraphUnits t) :
    u ≠ [] ∧ pyStrip u = u ∧ hasSub nl2 u = false ∧ u.getLast? ≠ some '\n' := by
  obtain ⟨hne, p, hp, hpu⟩ := mem_stripFilter hu
  refine ⟨hne, ?_, ?_, ?_⟩
  · rw [← hpu]
    exact pyStrip_idem p
  · rw [← hpu]
    exact hasSub_strip (splitNl2_piece_no_nl2 t p hp)
  · intro hlast
    have hws : isPyWs '\n' = false :=
      stripLast_not_ws (s := p) (by rw [hpu]; exact hlast)
    simp [isPyWs] at hws

/-- C1: Paragraph-strategy segmentation (text2paragraph.py line 35) splits on
two consecutive newlines, trims each piece and discards empty pieces; every
returned unit is non-empty and already trimmed, and re-joining the units with
`"\n\n"` reproduces the original text's paragraphs up to trimming (segmenting
the re-joined text yields exactly the same units). -/
theorem paragraph_units_roundtrip (t : Str) :
    (∀ u ∈ paragraphUnits t, u ≠ [] ∧ pyStrip u = u) ∧
    paragraphUnits (joinSep nl2 (paragraphUnits t)) = paragraphUnits t := by
  constructor
  · intro u hu
    obtain ⟨h1, h2, _, _⟩ := paragraph_unit_props hu
    exact ⟨h1, h2⟩
  · by_cases hU : paragraphUnits t = []
    · rw [hU]
      decide
    · have hprops : ∀ u ∈ paragraphUnits t,
          hasSub nl2 u = false ∧ u.getLast? ≠ some '\n' :=
        fun u hu =>
          ⟨(paragraph_unit_props hu).2.2.1, (paragraph_unit_props hu).2.2.2⟩
      have hsplit : splitNl2 (joinSep nl2 (paragraphUnits t)) = paragraphUnits t :=
        splitNl2_joinSep _ hU hprops
      have hmap : (paragraphUnits t).map pyStrip = paragraphUnits t := by
        rw [List.map_congr_left (fun u hu => (paragraph_unit_props hu).2.1)]
        exact List.map_id _
      have hfil : (paragraphUnits t).filter (fun p => !p.isEmpty) = paragraphUnits t :=
        List.filter_eq_self.mpr (fun u hu => by
          simpa using (paragraph_unit_props hu).1)
      show stripFilter (splitNl2 (joinSep nl2 (paragraphUnits t))) = paragraphUnits t
      rw [hsplit]
      show ((paragraphUnits t).map pyStrip).filter (fun p => !p.isEmpty)
          = paragraphUnits t
      rw [hmap, hfil]

/-- Witness for C1 at a concrete input. -/
theorem paragraph_units_roundtrip_w :
    "ab".toList ≠ [] ∧ pyStrip ("ab".toList) = "ab".toList :=
  (paragraph_units_roundtrip ("ab\n\ncd".toList)).1 ("ab".toList) (by decide)

/-! ## Lemmas about join and the generic split / replace -/

theorem joinSep_nil_cons (sep : Str) {X : List Str} (h : X ≠ []) :
    joinSep sep ([] :: X) = sep ++ joinSep sep X := by
  cases X with
  | nil => exact absurd rfl h
  | cons x xs => simp [joinSep]

theorem joinSep_withHead (sep : Str) (c : Char) {X : List Str} (h : X ≠ []) :
    joinSep sep (withHead c X) = c :: joinSep sep X := by
  cases X with
  | nil => exact absurd rfl h
  | cons x xs =>
    cases xs with
    | nil => simp [withHead, joinSep]
    | cons v r => simp [withHead, joinSep]

theorem replace_eq_join_split (f0 : Char) (fs repl : Str) : ∀ s : Str,
    replCore f0 fs repl s = joinSep repl (splitOnSub f0 fs s)
  | [] => by
    rw [replCore, splitOnSub]
    rfl
  | c :: rest => by
    rw [replCore, splitOnSub]
    by_cases h : isPre (f0 :: fs) (c :: rest) = true
    · rw [if_pos h, if_pos h,
        replace_eq_join_split f0 fs repl (rest.drop fs.length),
        joinSep_nil_cons repl (splitOnSub_ne_nil f0 fs (rest.drop fs.length))]
    · rw [if_neg h, if_neg h,
        replace_eq_join_split f0 fs repl rest,
        joinSep_withHead repl c (splitOnSub_ne_nil f0 fs rest)]
termination_by s => s.length
decreasing_by
  · simp only [List.length_drop, List.length_cons]
    omega
  · simp

theorem flatten_singletons : ∀ s : Str, (s.map (fun c => [c])).flatten = s
  | [] => rfl
  | c :: rest => by
    simp only [List.map_cons, List.flatten_cons, List.singleton_append]
    rw [flatten_singletons rest]

/-- C2 counterexample: for an empty `findStr` and a non-empty `replaceStr`,
CPython's `str.replace` (merge1level.py line 36, t2t.py line 91) does not
return the base name unchanged: `"ab".replace("", "X") == "XaXbX"`. -/
theorem derive_output_base_cex :
    ¬ (pyReplace ("ab".toList) [] ("X".toList) = "ab".toList) := by decide

/-- C2 amended: for a non-empty `findStr`, `str.replace` performs literal
leftmost non-overlapping substring replacement — it equals re-joining the
literal `str.split(findStr)` pieces with `replaceStr` —; for an empty
`findStr` the result inserts `replaceStr` before every character and after
the last one, so the base name is returned unchanged only when `replaceStr`
is empty as well. -/
theorem derive_output_base_amended (s repl : Str) :
    (∀ (f0 : Char) (fs : Str),
        pyReplace s (f0 :: fs) repl = joinSep repl (splitOnSub f0 fs s)) ∧
    pyReplace s [] repl = repl ++ (s.map (fun c => c :: repl)).flatten ∧
    pyReplace s [] [] = s := by
  refine ⟨fun f0 fs => replace_eq_join_split f0 fs repl s, rfl, ?_⟩
  show [] ++ (s.map (fun c => c :: [])).flatten = s
  rw [List.nil_append]
  exact flatten_singletons s

/-! ## Lemmas about the underscore split -/

theorem withHead_append (c : Char) {X : List Str} (Y : List Str) (h : X ≠ []) :
    withHead c (X ++ Y) = withHead c X ++ Y := by
  cases X with
  | nil => exact absurd rfl h
  | cons x xs => simp [withHead]

theorem splitUnd_append_sep : ∀ a b : Str, splitUnd (a ++ '_' :: b) = splitUnd a ++ splitUnd b
  | [], b => by
    simp [splitUnd]
  | c :: a', b => by
    rw [List.cons_append, splitUnd, splitUnd]
    by_cases h : c = '_'
    · rw [if_pos h, if_pos h, splitUnd_append_sep a' b]
      simp
    · rw [if_neg h, if_neg h, splitUnd_append_sep a' b,
        withHead_append c (splitUnd b) (splitUnd_ne_nil a')]

theorem splitUnd_no_und : ∀ b : Str, '_' ∉ b → splitUnd b = [b]
  | [], _ => by simp [splitUnd]
  | c :: b', h => by
    rw [splitUnd, if_neg (fun hc => h (by rw [hc]; simp)),
      splitUnd_no_und b' (fun hb => h (List.mem_cons_of_mem c hb))]
    simp [withHead]

theorem joinSep_splitUnd : ∀ a : Str, joinSep ['_'] (splitUnd a) = a
  | [] => rfl
  | c :: a' => by
    rw [splitUnd]
    by_cases h : c = '_'
    · rw [if_pos h, joinSep_nil_cons ['_'] (splitUnd_ne_nil a'), joinSep_splitUnd a']
      rw [h]
      rfl
    · rw [if_neg h, joinSep_withHead ['_'] c (splitUnd_ne_nil a'), joinSep_splitUnd a']

/-- C6: DeriveMergeKey (merge1level.py line 33) strips the trailing
underscore-delimited token — for any base name `a ++ "_" ++ tok` where `tok`
has no underscore the key is `a` — and when the base name contains no
underscore at all the merge key is the empty string; concrete cases
`"report_0007" ↦ "report"` and `"scene_014_desc_0003" ↦ "scene_014_desc"`. -/
theorem derive_merge_key_spec (a tok b : Str) (htok : '_' ∉ tok) (hb : '_' ∉ b) :
    deriveMergeKey (a ++ '_' :: tok) = a ∧
    deriveMergeKey b = [] ∧
    deriveMergeKey ("report_0007".toList) = "report".toList ∧
    deriveMergeKey ("scene_014_desc_0003".toList) = "scene_014_desc".toList := by
  refine ⟨?_, ?_, by decide, by decide⟩
  · show joinSep ['_'] ((splitUnd (a ++ '_' :: tok)).dropLast) = a
    rw [splitUnd_append_sep, splitUnd_no_und tok htok, List.dropLast_concat]
    exact joinSep_splitUnd a
  · show joinSep ['_'] ((splitUnd b).dropLast) = []
    rw [splitUnd_no_und b hb]
    rfl

/-- Witness for C6 at a concrete input. -/
theorem derive_merge_key_spec_w :
    deriveMergeKey ("report".toList ++ '_' :: "0007".toList) = "report".toList ∧
    deriveMergeKey ("chapter".toList) = [] :=
  ⟨(derive_merge_key_spec ("report".toList) ("0007".toList) ("chapter".toList)
      (by decide) (by decide)).1,
   (derive_merge_key_spec ("report".toList) ("0007".toList) ("chapter".toList)
      (by decide) (by decide)).2.1⟩

/-! ## The merger (merge1level.py) -/

/-- merge1level.py lines 32-36: merge key of a chunk's base name — strip the
trailing underscore token, then apply the find/replace transformation. -/
def mergeKeyOf (find repl b : Str) : Str := pyReplace (deriveMergeKey b) find repl

/-- merge1level.py lines 49-55: append the source file's content plus two
trailing newlines to the destination file named by the transformed merge key
(`open(output_file_path, 'a')` followed by `write(content + "\n\n")`). -/
def mergeStep (find repl : Str) (d : Str → Str) (f : Str × Str) : Str → Str :=
  fun k => if k = mergeKeyOf find repl f.1 then d k ++ (f.2 ++ nl2) else d k

/-- merge1level.py merge_files loop (lines 28-55): fold the append step over
the glob-matched `(baseName, content)` files; `d` maps each merge key to the
current content of its destination file (empty for a missing file). -/
def mergeRun (find repl : Str) (files : List (Str × Str)) (d : Str → Str) : Str → Str :=
  files.foldl (mergeStep find repl) d

theorem mergeStep_decomp (find repl : Str) (d : Str → Str) (f : Str × Str) (k : Str) :
    mergeStep find repl d f k = d k ++ mergeStep find repl (fun _ => []) f k := by
  unfold mergeStep
  split <;> simp

theorem mergeRun_decomp (find repl : Str) :
    ∀ (files : List (Str × Str)) (d : Str → Str) (k : Str),
    mergeRun find repl files d k = d k ++ mergeRun find repl files (fun _ => []) k
  | [], d, k => by simp [mergeRun]
  | f :: fs, d, k => by
    show mergeRun find repl fs (mergeStep find repl d f) k = _
    rw [mergeRun_decomp find repl fs (mergeStep find repl d f) k, mergeStep_decomp]
    conv_rhs =>
      rw [show mergeRun find repl (f :: fs) (fun _ => []) k =
            mergeRun find repl fs (mergeStep find repl (fun _ => []) f) k from rfl,
          mergeRun_decomp find repl fs (mergeStep find repl (fun _ => []) f) k]
    rw [List.append_assoc]

/-- C7: the merge is append-only — a single file's full content plus two
trailing newlines is appended to the destination keyed by its transformed
merge key, any run only appends to the pre-existing destination contents,
and running the merge twice from an empty destination leaves, for every
merge key, the content of one run concatenated with itself (no idempotence). -/
theorem merge_append_only_twice (find repl : Str) (files : List (Str × Str)) :
    (∀ (d : Str → Str) (n c k : Str),
        mergeRun find repl [(n, c)] d k =
          if k = mergeKeyOf find repl n then d k ++ (c ++ nl2) else d k) ∧
    (∀ (d : Str → Str) (k : Str),
        mergeRun find repl files d k =
          d k ++ mergeRun find repl files (fun _ => []) k) ∧
    (∀ k : Str,
        mergeRun find repl files (mergeRun find repl files (fun _ => [])) k =
          mergeRun find repl files (fun _ => []) k ++
            mergeRun find repl files (fun _ => []) k) :=
  ⟨fun _ _ _ _ => rfl,
   fun d k => mergeRun_decomp find repl files d k,
   fun k => mergeRun_decomp find repl files _ k⟩

/-! ## The tagged-message builder (ewardea.py) -/

/-- Tag selecting square-bracket delimiters (ewardea.py line 123). -/
def tagSquare : Str := "SQUAREBRACKETS".toList

/-- Tag selecting curly-bracket delimiters (ewardea.py line 125). -/
def tagCurly : Str := "CURLYBRACKETS".toList

/-- Tag selecting parenthesis delimiters (ewardea.py line 127). -/
def tagParen : Str := "PARENTHESES".toList

/-- Tag selecting angle-bracket delimiters (ewardea.py line 129). -/
def tagAngle : Str := "ANGLEBRACKETS".toList

/-- ewardea.py lines 123-132: the text appended to the payload for one
readable association, exactly as the source formats it
(`f"\n[{text}]\n"` and so on; any other tag gives `f"\n{tag}\n{text}\n{tag}\n"`). -/
def srcBlock (tag text : Str) : Str :=
  if tag = tagSquare then ['\n', '['] ++ text ++ [']', '\n']
  else if tag = tagCurly then ['\n', '\x7b'] ++ text ++ ['\x7d', '\n']
  else if tag = tagParen then ['\n', '('] ++ text ++ [')', '\n']
  else if tag = tagAngle then ['\n', '<'] ++ text ++ ['>', '\n']
  else ['\n'] ++ tag ++ ['\n'] ++ text ++ ['\n'] ++ tag ++ ['\n']

/-- The same block as the spec describes it (§4.3): every block preceded and
followed by one newline, recognized tags wrapping the text in their delimiter
pair, any other tag rendered as the three lines tag, text, tag.  Kept separate
from `srcBlock` so the claim can compare source formatting with the spec's. -/
def specBlock (tag text : Str) : Str :=
  ['\n'] ++
    (if tag = tagSquare then ['['] ++ text ++ [']']
     else if tag = tagCurly then ['\x7b'] ++ text ++ ['\x7d']
     else if tag = tagParen then ['('] ++ text ++ [')']
     else if tag = tagAngle then ['<'] ++ text ++ ['>']
     else tag ++ ['\n'] ++ text ++ ['\n'] ++ tag) ++ ['\n']

theorem srcBlock_eq_specBlock (tag text : Str) : srcBlock tag text = specBlock tag text := by
  unfold srcBlock specBlock
  split_ifs <;> simp

/-- ewardea.py lines 113-132: one iteration of the association loop — a failed
read (`FileNotFoundError` or any other exception) logs the offending path and
skips the association (`continue`); a successful read appends the tagged
block to the payload. -/
def payloadStep (read : Str → Option Str) (st : Str × List Str) (p : Str × Str) :
    Str × List Str :=
  match read p.2 with
  | none => (st.1, st.2 ++ [p.2])
  | some text => (st.1 ++ srcBlock p.1 text, st.2)

/-- ewardea.py build_payload_str (lines 101-133): fold the association loop
over the declared tag/file tuples starting from the prompt.  The first
component is the returned payload string; the second collects the paths whose
read failed, in order (each is logged by the source via `logging.error`). -/
def buildPayloadStr (prompt : Str) (tuples : List (Str × Str))
    (read : Str → Option Str) : Str × List Str :=
  tuples.foldl (payloadStep read) (prompt, [])

theorem buildFold (read : Str → Option Str) :
    ∀ (ts : List (Str × Str)) (a : Str) (l : List Str),
    ts.foldl (payloadStep read) (a, l) =
      (a ++ ((ts.filter (fun p => (read p.2).isSome)).map
          (fun p => srcBlock p.1 ((read p.2).getD []))).flatten,
       l ++ (ts.filter (fun p => (read p.2).isNone)).map Prod.snd)
  | [], a, l => by simp
  | p :: ts, a, l => by
    cases hr : read p.2 with
    | none =>
      have hstep : payloadStep read (a, l) p = (a, l ++ [p.2]) := by
        simp [payloadStep, hr]
      rw [List.foldl_cons, hstep, buildFold read ts a (l ++ [p.2])]
      simp [List.filter_cons, hr, List.append_assoc]
    | some text =>
      have hstep : payloadStep read (a, l) p = (a ++ srcBlock p.1 text, l) := by
        simp [payloadStep, hr]
      rw [List.foldl_cons, hstep, buildFold read ts (a ++ srcBlock p.1 text) l]
      simp [List.filter_cons, hr, List.append_assoc]

/-- C5: for a prompt and an ordered list of readable tag/file associations,
build_payload_str appends one block per association onto the prompt in
declaration order, each preceded and followed by a newline, with
SQUAREBRACKETS / CURLYBRACKETS / PARENTHESES / ANGLEBRACKETS wrapping the file
text in their delimiter pairs and any other tag giving the three lines tag,
text, tag; no failure is logged; and concretely
`BuildMessage "P" [("SQUAREBRACKETS", "a.txt")]` with `a.txt` containing
`hello` yields `"P\n[hello]\n"`. -/
theorem build_message_readable (prompt : Str) (tuples : List (Str × Str))
    (read : Str → Option Str) (h : ∀ p ∈ tuples, (read p.2).isSome = true) :
    (buildPayloadStr prompt tuples read).1 =
      prompt ++ (tuples.map (fun p => specBlock p.1 ((read p.2).getD []))).flatten ∧
    (buildPayloadStr prompt tuples read).2 = [] ∧
    (buildPayloadStr ("P".toList) [(tagSquare, "a.txt".toList)]
        (fun f => if f = "a.txt".toList then some ("hello".toList) else none)).1 =
      "P\n[hello]\n".toList := by
  have hnone : tuples.filter (fun p => (read p.2).isNone) = [] := by
    rw [List.filter_eq_nil_iff]
    intro p hp
    have := h p hp
    cases hr : read p.2 with
    | none => rw [hr] at this; simp at this
    | some v => simp [hr]
  refine ⟨?_, ?_, by decide⟩
  · show (tuples.foldl (payloadStep read) (prompt, [])).1 = _
    rw [buildFold read tuples prompt [], List.filter_eq_self.mpr h]
    show prompt ++ _ = prompt ++ _
    rw [List.map_congr_left
      (fun p _ => srcBlock_eq_specBlock p.1 ((read p.2).getD []))]
  · show (tuples.foldl (payloadStep read) (prompt, [])).2 = _
    rw [buildFold read tuples prompt [], hnone]
    rfl

/-- Witness for C5 at a concrete input. -/
theorem build_message_readable_w :
    (buildPayloadStr ("P".toList) [(tagSquare, "a.txt".toList)]
        (fun f => if f = "a.txt".toList then some ("hello".toList) else none)).2 = [] :=
  (build_message_readable ("P".toList) [(tagSquare, "a.txt".toList)]
      (fun f => if f = "a.txt".toList then some ("hello".toList) else none)
      (by decide)).2.1

/-- C9: when reading an association's file fails the failure is logged with
the offending path and only that association's block is omitted — the built
message equals the message built from the readable associations alone, the
log lists exactly the failed paths in order, and construction never aborts. -/
theorem build_message_skips_failures (prompt : Str) (tuples : List (Str × Str))
    (read : Str → Option Str) :
    (buildPayloadStr prompt tuples read).1 =
      (buildPayloadStr prompt (tuples.filter (fun p => (read p.2).isSome)) read).1 ∧
    (buildPayloadStr prompt tuples read).2 =
      (tuples.filter (fun p => (read p.2).isNone)).map Prod.snd := by
  unfold buildPayloadStr
  rw [buildFold read tuples prompt [],
      buildFold read (tuples.filter (fun p => (read p.2).isSome)) prompt []]
  have hff : (tuples.filter (fun p => (read p.2).isSome)).filter
      (fun p => (read p.2).isSome) = tuples.filter (fun p => (read p.2).isSome) :=
    List.filter_eq_self.mpr (fun p hp => (List.mem_filter.mp hp).2)
  have hfn : (tuples.filter (fun p => (read p.2).isSome)).filter
      (fun p => (read p.2).isNone) = [] := by
    rw [List.filter_eq_nil_iff]
    intro p hp
    have h2 := (List.mem_filter.mp hp).2
    cases hr : read p.2 with
    | none => rw [hr] at h2; simp at h2
    | some v => simp [hr]
  rw [hff, hfn]
  constructor
  · rfl
  · rfl

/-! ## The chunk orchestrator (scenes2description.py) -/

/-- Observable outcome of one orchestrator run: the output files created in
the destination directory (name and content, in creation order) and the input
paths for which a per-chunk failure was logged. -/
structure OrchTrace where
  outputs : List (Str × Str)
  failed : List Str
deriving DecidableEq

/-- scenes2description.py lines 102-103: destination file name — the source
base name with FIND_STR replaced by REPLACE_STR, plus the `.txt` extension. -/
def orchOutName (find repl base : Str) : Str :=
  pyReplace base find repl ++ ['.', 't', 'x', 't']

/-- scenes2description.py lines 130-136: one chunk.  The destination file is
created (truncated) by `open(output_file, "w")` BEFORE the child responder
process runs; on success it holds the child's stdout, on failure
(`subprocess.CalledProcessError`) the child printed nothing, the empty file
remains, and the error is logged with the offending input path. -/
def orchStep (respond : Str → Except Str Str) (find repl : Str)
    (r : OrchTrace) (base : Str) : OrchTrace :=
  match respond base with
  | .ok text => ⟨r.outputs ++ [(orchOutName find repl base, text)], r.failed⟩
  | .error _ => ⟨r.outputs ++ [(orchOutName find repl base, [])], r.failed ++ [base]⟩

/-- scenes2description.py process_files loop (lines 97-136): every
glob-matched chunk is attempted in order; a failed chunk is logged and the
loop advances to the next chunk. -/
def runChunks (respond : Str → Except Str Str) (find repl : Str)
    (files : List Str) : OrchTrace :=
  files.foldl (orchStep respond find repl) ⟨[], []⟩

/-- C3 counterexample: with 3 matched files and the responder failing on the
second, the destination holds 3 output files (the second one empty), not 2 —
`open(output_file, "w")` creates the file before the responder child runs. -/
theorem orch_three_files_cex :
    ¬ ((runChunks
        (fun f => if f = "b".toList then Except.error ("boom".toList)
                  else Except.ok ("ok".toList))
        [] [] ["a".toList, "b".toList, "c".toList]).outputs.length = 2) := by
  decide

/-- C3 amended: over 3 glob-matched files with the responder failing for
file #2 and succeeding for files #1 and #3, every chunk is attempted in
order — the loop never aborts —, 3 output files exist afterwards (file #2's
output exists but is empty, because the file is opened for writing before
the responder child runs), and a failure is logged for file #2's path. -/
theorem orch_one_failure_amended (respond : Str → Except Str Str)
    (find repl f1 f2 f3 t1 t3 e : Str)
    (h1 : respond f1 = .ok t1) (h2 : respond f2 = .error e)
    (h3 : respond f3 = .ok t3) :
    runChunks respond find repl [f1, f2, f3] =
      ⟨[(orchOutName find repl f1, t1), (orchOutName find repl f2, []),
        (orchOutName find repl f3, t3)], [f2]⟩ := by
  show orchStep respond find repl
      (orchStep respond find repl
        (orchStep respond find repl ⟨[], []⟩ f1) f2) f3 = _
  rw [show orchStep respond find repl ⟨[], []⟩ f1 =
      ⟨[(orchOutName find repl f1, t1)], []⟩ by simp [orchStep, h1]]
  rw [show orchStep respond find repl ⟨[(orchOutName find repl f1, t1)], []⟩ f2 =
      ⟨[(orchOutName find repl f1, t1), (orchOutName find repl f2, [])], [f2]⟩ by
    simp [orchStep, h2]]
  simp [orchStep, h3]

/-- Witness for the amended C3 at a concrete input. -/
theorem orch_one_failure_amended_w :
    runChunks
        (fun f => if f = "b".toList then Except.error ("boom".toList)
                  else Except.ok ("ok".toList))
        [] [] ["a".toList, "b".toList, "c".toList] =
      ⟨[(orchOutName [] [] ("a".toList), "ok".toList),
        (orchOutName [] [] ("b".toList), []),
        (orchOutName [] [] ("c".toList), "ok".toList)], ["b".toList]⟩ :=
  orch_one_failure_amended
    (fun f => if f = "b".toList then Except.error ("boom".toList)
              else Except.ok ("ok".toList))
    [] [] ("a".toList) ("b".toList) ("c".toList)
    ("ok".toList) ("ok".toList) ("boom".toList)
    rfl rfl rfl

/-! ## The regex-split segmenter run (t2t.py) -/

/-- Error taxonomy of t2t.py main (lines 146-151): a `ValueError` from
configuration validation is logged as a Configuration Error; any other
exception — including `re.error` raised by `re.split` on a malformed pattern,
which subclasses `Exception` but not `ValueError` — is logged as an
Unexpected Error.  Either aborts the run via `sys.exit(1)`. -/
inductive T2TErr where
  | configError : Str → T2TErr
  | unexpectedError : Str → T2TErr
deriving DecidableEq

/-- Observable trace of one t2t.py run: the input files read (in order), the
units written as `(sourceBaseName, unit)` pairs, and the error that aborted
the run, if any. -/
structure T2TTrace where
  reads : List Str
  writes : List (Str × Str)
  err : Option T2TErr
deriving DecidableEq

/-- t2t.py process_files loop (lines 86-113): each matched file is read, then
`re.split(SPLIT_STR, content)` runs — modelled by `resplit`, which returns
`Except.error` when the pattern is malformed (`re.error` is raised at the
first call).  That exception propagates out of `process_files`, aborting the
whole run: later files are not read and no unit of the failing file is
written; on success the stripped non-empty units are written and the loop
continues. -/
def t2tLoop (resplit : Str → Except Str (List Str)) :
    List (Str × Str) → T2TTrace
  | [] => ⟨[], [], none⟩
  | (name, content) :: rest =>
    match resplit content with
    | .error e => ⟨[name], [], some (.unexpectedError e)⟩
    | .ok pieces =>
      let tr := t2tLoop resplit rest
      ⟨name :: tr.reads,
       ((t2tUnits pieces).map (fun u => (name, u))) ++ tr.writes,
       tr.err⟩

/-- t2t.py main (lines 130-151): a `ValueError` raised by
validate_configuration (lines 60-64, all six parameters required) is caught
and logged as a Configuration Error before any file is processed; otherwise
process_files runs and an exception it raises is caught as an Unexpected
Error. -/
def t2tMain (cfgComplete : Bool) (resplit : Str → Except Str (List Str))
    (files : List (Str × Str)) : T2TTrace :=
  if cfgComplete then t2tLoop resplit files
  else ⟨[], [], some (.configError ("Missing required parameters".toList))⟩

/-- C4 counterexample: with a complete configuration, a malformed split regex
and one matched file, the run reads that file before failing — the failure is
not raised before any file is read, and it surfaces as an Unexpected Error
(re.error is not a ValueError), not as a Configuration Error. -/
theorem t2t_badregex_cex :
    (t2tMain true (fun _ => Except.error ("bad pattern".toList))
        [("a.txt".toList, "x".toList)]).reads ≠ [] ∧
    (t2tMain true (fun _ => Except.error ("bad pattern".toList))
        [("a.txt".toList, "x".toList)]).err =
      some (.unexpectedError ("bad pattern".toList)) := by
  constructor
  · decide
  · decide

/-- C4 amended: a malformed split regex is not validated up front — with at
least one matched file the run reads the first file, then the first
`re.split` call raises, the exception aborts the entire run before any output
is written and before any further file is read, and it is surfaced as an
Unexpected Error rather than a Configuration Error (only missing required
parameters abort before the per-file loop, as a Configuration Error). -/
theorem t2t_badregex_amended (e : Str) (f : Str × Str) (rest : List (Str × Str))
    (resplit : Str → Except Str (List Str)) (hbad : ∀ c, resplit c = .error e) :
    t2tMain true resplit (f :: rest) = ⟨[f.1], [], some (.unexpectedError e)⟩ ∧
    t2tMain false resplit (f :: rest) =
      ⟨[], [], some (.configError ("Missing required parameters".toList))⟩ := by
  constructor
  · obtain ⟨name, content⟩ := f
    show t2tLoop resplit ((name, content) :: rest) = _
    simp [t2tLoop, hbad content]
  · rfl

/-- Witness for the amended C4 at a concrete input. -/
theorem t2t_badregex_amended_w :
    t2tMain true (fun _ => Except.error ("bad pattern".toList))
        [("a.txt".toList, "x".toList)] =
      ⟨["a.txt".toList], [], some (.unexpectedError ("bad pattern".toList))⟩ :=
  (t2t_badregex_amended ("bad pattern".toList) ("a.txt".toList, "x".toList) []
    (fun _ => Except.error ("bad pattern".toList)) (fun _ => rfl)).1

/-! ## Lemmas about the sentence splitter -/

/-- No internal split point: no adjacent pair (terminator, whitespace)
occurs in the string. -/
def noSplitPair : Str → Bool
  | [] => true
  | [_] => true
  | c :: d :: rest => !(isTerm c && isPyWs d) && noSplitPair (d :: rest)

/-- The string is non-empty and starts with a non-whitespace character. -/
def headNotWs : Str → Bool
  | [] => false
  | c :: _ => !isPyWs c

/-- The string is non-empty and ends with a sentence terminator. -/
def lastIsTerm (s : Str) : Bool :=
  match s.getLast? with
  | some c => isTerm c
  | none => false

/-- A properly terminated sentence together with the whitespace run that
follows it: non-empty, starts non-whitespace, ends with `.`/`!`/`?`, has no
internal split point, and the separator is a non-empty whitespace run. -/
def properPair (p : Str × Str) : Bool :=
  headNotWs p.1 && lastIsTerm p.1 && noSplitPair p.1 &&
    !p.2.isEmpty && p.2.all isPyWs

/-- An input text that is a sequence of sentences, each followed by its
whitespace separator. -/
def glueSent : List (Str × Str) → Str
  | [] => []
  | (s, w) :: rest => s ++ w ++ glueSent rest

/-- The same text without the final whitespace run (what `content.strip()`
leaves of it). -/
def glueJoin : List (Str × Str) → Str
  | [] => []
  | [(s, _)] => s
  | (s, w) :: q :: rest => s ++ w ++ glueJoin (q :: rest)

/-- The final whitespace run of the glued text. -/
def lastSnd : List (Str × Str) → Str
  | [] => []
  | [(_, w)] => w
  | _ :: q :: rest => lastSnd (q :: rest)

theorem noSplitPair_cons {c d : Char} {rest : Str}
    (h : noSplitPair (c :: d :: rest) = true) :
    (isTerm c && isPyWs d) = false ∧ noSplitPair (d :: rest) = true := by
  have h' : (!(isTerm c && isPyWs d) && noSplitPair (d :: rest)) = true := h
  simp only [Bool.and_eq_true] at h'
  obtain ⟨h1, h2⟩ := h'
  refine ⟨?_, h2⟩
  cases hb : (isTerm c && isPyWs d) with
  | false => rfl
  | true => rw [hb] at h1; simp at h1

theorem lastIsTerm_cons_cons (c d : Char) (s' : Str) :
    lastIsTerm (c :: d :: s') = lastIsTerm (d :: s') := by
  unfold lastIsTerm
  rw [List.getLast?_cons_cons]

theorem headNotWs_ne_nil {s : Str} (h : headNotWs s = true) : s ≠ [] := by
  cases s with
  | nil => simp [headNotWs] at h
  | cons c x => simp

theorem headNotWs_of_head? {t : Str} {c : Char} (h : t.head? = some c)
    (hc : isPyWs c = false) : headNotWs t = true := by
  cases t with
  | nil => simp at h
  | cons a x =>
    simp at h
    subst h
    simp [headNotWs, hc]

theorem isTerm_not_ws {c : Char} (h : isTerm c = true) : isPyWs c = false := by
  unfold isTerm at h
  simp only [Bool.or_eq_true, decide_eq_true_eq] at h
  rcases h with (h0 | h0) | h0 <;> subst h0 <;> decide

theorem properPair_props {p : Str × Str} (h : properPair p = true) :
    headNotWs p.1 = true ∧ lastIsTerm p.1 = true ∧ noSplitPair p.1 = true ∧
    p.2 ≠ [] ∧ (∀ c ∈ p.2, isPyWs c = true) := by
  unfold properPair at h
  simp only [Bool.and_eq_true] at h
  obtain ⟨⟨⟨⟨h1, h2⟩, h3⟩, h4⟩, h5⟩ := h
  refine ⟨h1, h2, h3, by simpa using h4, ?_⟩
  exact fun c hc => List.all_eq_true.mp h5 c hc

theorem sentA_skip_ws : ∀ w t : Str, (∀ c ∈ w, isPyWs c = true) →
    sentA true (w ++ t) = sentA true t
  | [], t, _ => by simp
  | w0 :: w', t, h => by
    have hw0 : isPyWs w0 = true := h w0 (by simp)
    have hrest : ∀ c ∈ w', isPyWs c = true := fun c hc => h c (by simp [hc])
    rw [List.cons_append]
    cases hwt : w' ++ t with
    | nil =>
      have ht : t = [] := by
        cases t with
        | nil => rfl
        | cons a b =>
          have : (w' ++ a :: b).length = 0 := by rw [hwt]; rfl
          simp at this
      rw [ht]
      simp [sentA, hw0]
    | cons x xs =>
      have hstep : sentA true (w0 :: x :: xs) = sentA true (x :: xs) := by
        simp only [sentA]
        rw [if_pos (by simp [hw0])]
      rw [hstep, ← hwt]
      exact sentA_skip_ws w' t hrest

theorem sentA_true_false {t : Str} (h : headNotWs t = true) :
    sentA true t = sentA false t := by
  cases t with
  | nil => rfl
  | cons c rest =>
    have hc : isPyWs c = false := by simpa [headNotWs] using h
    cases rest with
    | nil => simp [sentA, hc]
    | cons d rest' => simp [sentA, hc]

theorem sentA_no_split : ∀ s : Str, noSplitPair s = true → sentA false s = [s]
  | [], _ => rfl
  | [c], _ => by simp [sentA]
  | c :: d :: rest, h => by
    obtain ⟨h1, h2⟩ := noSplitPair_cons h
    simp only [sentA]
    rw [if_neg (by simp), if_neg (by simp [h1]), sentA_no_split (d :: rest) h2]
    simp [withHead]

theorem sentA_boundary : ∀ s w t : Str,
    noSplitPair s = true → lastIsTerm s = true →
    w ≠ [] → (∀ c ∈ w, isPyWs c = true) → headNotWs t = true →
    sentA false (s ++ w ++ t) = s :: sentA false t
  | [], w, t, _, hlast, _, _, _ => by simp [lastIsTerm] at hlast
  | [c], w, t, _, hlast, hw, hwall, ht => by
    have hterm : isTerm c = true := by simpa [lastIsTerm] using hlast
    obtain ⟨w0, w', rfl⟩ := List.exists_cons_of_ne_nil hw
    have hw0 : isPyWs w0 = true := hwall w0 (by simp)
    rw [List.singleton_append, List.cons_append]
    simp only [sentA, List.append_eq]
    rw [if_neg (by simp), if_pos (by simp [hterm, hw0])]
    rw [show w0 :: (w' ++ t) = (w0 :: w') ++ t from rfl]
    rw [sentA_skip_ws (w0 :: w') t hwall, sentA_true_false ht]
  | c :: d :: s', w, t, hns, hlast, hw, hwall, ht => by
    obtain ⟨h1, h2⟩ := noSplitPair_cons hns
    have hlast' : lastIsTerm (d :: s') = true := by
      rw [← lastIsTerm_cons_cons c]
      exact hlast
    rw [List.cons_append, List.cons_append]
    simp only [sentA, List.append_eq]
    rw [if_neg (by simp), if_neg (by simp [h1])]
    rw [show d :: (s' ++ w ++ t) = (d :: s') ++ w ++ t by simp]
    rw [sentA_boundary (d :: s') w t h2 hlast' hw hwall ht]
    simp [withHead]

theorem glueSent_eq : ∀ pairs : List (Str × Str), pairs ≠ [] →
    glueSent pairs = glueJoin pairs ++ lastSnd pairs
  | [], h => absurd rfl h
  | [(s, w)], _ => by simp [glueSent, glueJoin, lastSnd]
  | (s, w) :: q :: rest, _ => by
    show s ++ w ++ glueSent (q :: rest) = s ++ w ++ glueJoin (q :: rest) ++ lastSnd (q :: rest)
    rw [glueSent_eq (q :: rest) (by simp)]
    simp [List.append_assoc]

theorem lastSnd_all_ws : ∀ pairs : List (Str × Str),
    (∀ p ∈ pairs, properPair p = true) → ∀ c ∈ lastSnd pairs, isPyWs c = true
  | [], _ => by simp [lastSnd]
  | [(s, w)], h => by
    show ∀ c ∈ w, isPyWs c = true
    exact (properPair_props (h (s, w) (by simp))).2.2.2.2
  | p :: q :: rest, h => by
    show ∀ c ∈ lastSnd (q :: rest), isPyWs c = true
    exact lastSnd_all_ws (q :: rest) (fun r hr => h r (List.mem_cons_of_mem p hr))

theorem glueJoin_head (q : Str × Str) (rest : List (Str × Str)) (hq : q.1 ≠ []) :
    (glueJoin (q :: rest)).head? = q.1.head? := by
  cases rest with
  | nil =>
    obtain ⟨s, w⟩ := q
    rfl
  | cons r rs =>
    obtain ⟨s, w⟩ := q
    show (s ++ w ++ glueJoin (r :: rs)).head? = s.head?
    rw [List.append_assoc]
    exact headAppend _ hq

theorem glueJoin_last_term : ∀ pairs : List (Str × Str),
    (∀ p ∈ pairs, properPair p = true) → pairs ≠ [] →
    ∃ lc, (glueJoin pairs).getLast? = some lc ∧ isTerm lc = true
  | [], _, h => absurd rfl h
  | [(s, w)], h, _ => by
    have hlast : lastIsTerm s = true := (properPair_props (h (s, w) (by simp))).2.1
    show ∃ lc, s.getLast? = some lc ∧ isTerm lc = true
    unfold lastIsTerm at hlast
    cases hg : s.getLast? with
    | none => rw [hg] at hlast; simp at hlast
    | some lc =>
      rw [hg] at hlast
      exact ⟨lc, rfl, hlast⟩
  | (s, w) :: q :: rest, h, _ => by
    obtain ⟨lc, hlc, hterm⟩ := glueJoin_last_term (q :: rest)
      (fun r hr => h r (List.mem_cons_of_mem (s, w) hr)) (by simp)
    have hne : glueJoin (q :: rest) ≠ [] := by
      intro h0
      rw [h0] at hlc
      simp at hlc
    refine ⟨lc, ?_, hterm⟩
    show (s ++ w ++ glueJoin (q :: rest)).getLast? = some lc
    rw [List.append_assoc, getLastAppend s (by simp [hne]), getLastAppend w hne]
    exact hlc

theorem pyStrip_glueSent (pairs : List (Str × Str)) (hne : pairs ≠ [])
    (h : ∀ p ∈ pairs, properPair p = true) :
    pyStrip (glueSent pairs) = glueJoin pairs := by
  obtain ⟨q, rest, rfl⟩ := List.exists_cons_of_ne_nil hne
  have hq := properPair_props (h q (by simp))
  have hq1 : q.1 ≠ [] := headNotWs_ne_nil hq.1
  obtain ⟨c0, z, hc0⟩ := List.exists_cons_of_ne_nil hq1
  have hc0ws : isPyWs c0 = false := by
    have := hq.1
    rw [hc0] at this
    simpa [headNotWs] using this
  obtain ⟨lc, hlc, hlcterm⟩ := glueJoin_last_term (q :: rest) h (by simp)
  have hlt : ltrim (glueSent (q :: rest)) = glueSent (q :: rest) := by
    apply dwHeadNoop (c := c0) _ hc0ws
    obtain ⟨s, w⟩ := q
    show (s ++ w ++ glueSent rest).head? = some c0
    rw [List.append_assoc, headAppend _ hq1, hc0]
    rfl
  show rtrim (ltrim (glueSent (q :: rest))) = glueJoin (q :: rest)
  rw [hlt, glueSent_eq (q :: rest) (by simp)]
  exact rtrim_append_ws (lastSnd_all_ws (q :: rest) h) hlc (isTerm_not_ws hlcterm)

theorem sentA_glueJoin : ∀ pairs : List (Str × Str), pairs ≠ [] →
    (∀ p ∈ pairs, properPair p = true) →
    sentA false (glueJoin pairs) = pairs.map Prod.fst
  | [], h, _ => absurd rfl h
  | [(s, w)], _, h => by
    show sentA false s = [s]
    exact sentA_no_split s (properPair_props (h (s, w) (by simp))).2.2.1
  | (s, w) :: q :: rest, _, h => by
    have hp := properPair_props (h (s, w) (by simp))
    have hqp := properPair_props (h q (by simp))
    have hq1 : q.1 ≠ [] := headNotWs_ne_nil hqp.1
    obtain ⟨c0, z, hc0⟩ := List.exists_cons_of_ne_nil hq1
    have hc0ws : isPyWs c0 = false := by
      have := hqp.1
      rw [hc0] at this
      simpa [headNotWs] using this
    have hhead : headNotWs (glueJoin (q :: rest)) = true := by
      apply headNotWs_of_head? (c := c0) _ hc0ws
      rw [glueJoin_head q rest hq1, hc0]
      rfl
    show sentA false (s ++ w ++ glueJoin (q :: rest)) = s :: (q :: rest).map Prod.fst
    rw [sentA_boundary s w (glueJoin (q :: rest)) hp.2.2.1 hp.2.1 hp.2.2.2.1
        hp.2.2.2.2 hhead,
      sentA_glueJoin (q :: rest) (by simp)
        (fun r hr => h r (List.mem_cons_of_mem (s, w) hr))]

/-- C8: for an input text that is a sequence of sentences, each properly
terminated by `.`/`!`/`?` and followed by a whitespace run (and containing no
internal terminator-plus-whitespace split point, and not starting with
whitespace), Sentence-strategy segmentation returns exactly one unit per
sentence, in the original order, discarding the whitespace run at each
boundary. -/
theorem sentence_segmentation_exact (pairs : List (Str × Str))
    (hne : pairs ≠ []) (h : ∀ p ∈ pairs, properPair p = true) :
    sentenceUnits (glueSent pairs) = pairs.map Prod.fst ∧
    (sentenceUnits (glueSent pairs)).length = pairs.length := by
  have h1 : sentenceUnits (glueSent pairs) = pairs.map Prod.fst := by
    show sentSplit (pyStrip (glueSent pairs)) = _
    rw [pyStrip_glueSent pairs hne h]
    exact sentA_glueJoin pairs hne h
  exact ⟨h1, by rw [h1, List.length_map]⟩

/-- Witness for C8 at a concrete input. -/
theorem sentence_segmentation_exact_w :
    sentenceUnits (glueSent [("Hi.".toList, " ".toList), ("Go!".toList, "  ".toList)]) =
      ["Hi.".toList, "Go!".toList] :=
  (sentence_segmentation_exact
    [("Hi.".toList, " ".toList), ("Go!".toList, "  ".toList)]
    (by decide) (by decide)).1

theorem stripFilter_all_ws {pieces : List Str}
    (h : ∀ p ∈ pieces, ∀ c ∈ p, isPyWs c = true) : stripFilter pieces = [] := by
  unfold stripFilter
  rw [List.filter_eq_nil_iff]
  intro u hu
  obtain ⟨p, hp, hpu⟩ := List.mem_map.mp hu
  rw [← hpu, pyStrip_all_ws (h p hp)]
  simp

/-- C10: for an input file whose content is empty or whitespace-only,
Sentence-strategy segmentation produces exactly one unit — the empty string —
and one output file is still written for it, whereas the paragraph and regex
modes filter such units out and write nothing; moreover in sentence mode
every input yields at least one output file. -/
theorem sentence_whitespace_single_unit (base content : Str)
    (h : ∀ c ∈ content, isPyWs c = true) :
    sentenceUnits content = [[]] ∧
    (sentenceOutputs base content).length = 1 ∧
    paragraphUnits content = [] ∧
    (∀ pieces : List Str, (∀ p ∈ pieces, ∀ c ∈ p, isPyWs c = true) →
      t2tUnits pieces = []) ∧
    (∀ c2 : Str, 1 ≤ (sentenceOutputs base c2).length) := by
  have h1 : sentenceUnits content = [[]] := by
    show sentSplit (pyStrip content) = [[]]
    rw [pyStrip_all_ws h]
    rfl
  refine ⟨h1, ?_, ?_, ?_, ?_⟩
  · show ((sentenceUnits content).enum.map _).length = 1
    rw [List.length_map, List.enum_length, h1]
    rfl
  · exact stripFilter_all_ws
      (fun p hp c hc => h c (splitNl2_piece_chars content p hp c hc))
  · exact fun pieces hp => stripFilter_all_ws hp
  · intro c2
    show 1 ≤ ((sentenceUnits c2).enum.map _).length
    rw [List.length_map, List.enum_length]
    exact List.length_pos.mpr (sentA_ne_nil false (pyStrip c2))

/-- Witness for C10 at a concrete input. -/
theorem sentence_whitespace_single_unit_w :
    sentenceUnits (" \n ".toList) = [[]] :=
  (sentence_whitespace_single_unit ("scene".toList) (" \n ".toList) (by decide)).1
